import Mathlib

/-!
Verification development for the codeanatomy static-analysis and
memory-simulation engine.

The definitions below are a shallow embedding of the TypeScript sources:
  * `src/utils/MemoryManager.ts`   — the bounded stack/heap simulator;
  * `src/utils/CodeExplainer.ts`   — `CodeExplainer.estimateMemoryUsage`,
    `CParser.parse/tokenize/validateSyntax` and the recursive-descent tree
    builder;
  * `src/utils/AdvancedCodeExplainer.ts` — `calculateComplexityScore` and
    `determineComplexity`.

Modelling conventions:
  * a JavaScript string is a `List Char` (abbreviated `Str`); `str` converts
    a Lean string literal;
  * JavaScript `number` values used as sizes, addresses and pointers are
    `Int` (the simulator never needs fractional values); counts are `Nat`;
  * a thrown `Error` is an `Except.error` carrying the thrown message, and
    each fallible operation returns the post-call object state next to the
    result (`throw` happens before any field mutation in the source, so the
    post-state on error is the pre-state);
  * regex scanning (`String.match(/…/g)`, `RegExp.test`) is embedded as a
    left-to-right scanner that, at each character position, runs a
    deterministic matcher for the pattern and, on success, resumes after the
    matched span — which is exactly the semantics of a global regex whose
    pieces are character classes that cannot backtrack into one another
    (each `X+`/`X*` is followed by a character outside the class `X`).
    JavaScript `\s` is modelled on its ASCII part, `\w` is `[A-Za-z0-9_]`.
-/

/-- A JavaScript string, as a list of characters. -/
abbrev Str := List Char

/-- Convert a Lean string literal to the `Str` model. -/
def str (s : String) : Str := s.toList

/-- The ASCII part of JavaScript's `\s` character class. -/
def isWS (c : Char) : Bool :=
  c = ' ' || c = '\t' || c = '\n' || c = '\r' || c = '\x0b' || c = '\x0c'

/-- JavaScript's `\w` character class, `[A-Za-z0-9_]`. -/
def isWordChar (c : Char) : Bool :=
  c.isAlpha || c.isDigit || c = '_'

/-- The structural delimiters the tokenizer isolates: `{ } ( ) ; ,`
(the character class of `replace(/([{}();,])/g, ' $1 ')`). -/
def isDelim (c : Char) : Bool :=
  c = '\x7b' || c = '\x7d' || c = '(' || c = ')' || c = ';' || c = ','

/-! ## MemoryManager (src/utils/MemoryManager.ts)

`interface StackFrame { name, size, variables, startAddress }` — `variables`
is a JS `Map`; it is modelled as an insertion-ordered association list and
`Map.set` as update-in-place-or-append.  The stored `value` is `any` in the
source; the callers only store strings, so it is modelled as `Str`. -/

/-- One entry of a frame's `variables` map: `{ value, type }`. -/
structure VarEntry where
  value : Str
  type : Str
deriving DecidableEq, Repr

/-- `interface StackFrame` of MemoryManager.ts. -/
structure StackFrame where
  name : Str
  size : Int
  /-- the source's `variables` field (`variables` is a keyword in Lean) -/
  vars : List (Str × VarEntry)
  startAddress : Int
deriving DecidableEq, Repr

/-- `interface HeapBlock` of MemoryManager.ts (`data` is always `null` in the
source and is omitted). -/
structure HeapBlock where
  address : Int
  size : Int
  allocated : Bool
deriving DecidableEq, Repr

/-- The mutable fields of `class MemoryManager`. -/
structure MemoryManager where
  stackFrames : List StackFrame
  heapBlocks : List HeapBlock
  currentStackPointer : Int
  currentHeapPointer : Int
deriving DecidableEq, Repr

/-- `private stackSize: number = 8192` — 8KB default stack. -/
def stackSize : Int := 8192

/-- `private heapSize: number = 65536` — 64KB default heap. -/
def heapSize : Int := 65536

/-- `reset()`: clears frames, blocks and both pointers. -/
def MemoryManager.reset (_s : MemoryManager) : MemoryManager :=
  { stackFrames := [], heapBlocks := [], currentStackPointer := 0, currentHeapPointer := 0 }

/-- The state after `new MemoryManager()` (the constructor calls `reset`). -/
def MemoryManager.init : MemoryManager :=
  { stackFrames := [], heapBlocks := [], currentStackPointer := 0, currentHeapPointer := 0 }

/-- JS `Map.set`: overwrite the entry in place when the key is present,
append otherwise. -/
def mapSet (m : List (Str × VarEntry)) (k : Str) (v : VarEntry) : List (Str × VarEntry) :=
  if m.any (fun p => p.1 == k) then
    m.map (fun p => if p.1 == k then (k, v) else p)
  else m ++ [(k, v)]

/-- `allocateStack(functionName, size)`: throws `'Stack overflow'` when
`currentStackPointer + size > stackSize`, otherwise pushes a frame and
advances the stack pointer.  Returned pair: (result, post-call state). -/
def allocateStack (s : MemoryManager) (functionName : Str) (size : Int) :
    Except Str Bool × MemoryManager :=
  if s.currentStackPointer + size > stackSize then
    (Except.error (str "Stack overflow"), s)
  else
    (Except.ok true,
      { s with
        stackFrames := s.stackFrames ++
          [{ name := functionName, size := size, vars := [],
             startAddress := s.currentStackPointer }],
        currentStackPointer := s.currentStackPointer + size })

/-- `deallocateStack()`: returns `false` on an empty stack, otherwise pops
the most recent frame and rolls the stack pointer back by its size. -/
def deallocateStack (s : MemoryManager) : Bool × MemoryManager :=
  match s.stackFrames.getLast? with
  | none => (false, s)
  | some frame =>
      (true,
        { s with
          stackFrames := s.stackFrames.dropLast,
          currentStackPointer := s.currentStackPointer - frame.size })

/-- `allocateHeap(size)`: throws `'Heap overflow'` when
`currentHeapPointer + size > heapSize`; otherwise appends a new allocated
block at address `currentHeapPointer`, advances the pointer and returns the
address. -/
def allocateHeap (s : MemoryManager) (size : Int) :
    Except Str Int × MemoryManager :=
  if s.currentHeapPointer + size > heapSize then
    (Except.error (str "Heap overflow"), s)
  else
    (Except.ok s.currentHeapPointer,
      { s with
        heapBlocks := s.heapBlocks ++
          [{ address := s.currentHeapPointer, size := size, allocated := true }],
        currentHeapPointer := s.currentHeapPointer + size })

/-- `findIndex(block => block.address === address)` followed by setting
`allocated = false` at that index: `none` when no block has the address,
otherwise the list with the first matching block marked freed. -/
def markFreedFirst : List HeapBlock → Int → Option (List HeapBlock)
  | [], _ => none
  | b :: rest, address =>
      if b.address = address then some ({ b with allocated := false } :: rest)
      else (markFreedFirst rest address).map (b :: ·)

/-- `deallocateHeap(address)`: throws `'Invalid heap address'` when no block
with the address exists, otherwise marks the first matching block freed. -/
def deallocateHeap (s : MemoryManager) (address : Int) :
    Except Str Bool × MemoryManager :=
  match markFreedFirst s.heapBlocks address with
  | none => (Except.error (str "Invalid heap address"), s)
  | some bs => (Except.ok true, { s with heapBlocks := bs })

/-- `setVariable(name, value, type)`: returns `false` on an empty stack,
otherwise binds into the top frame (the source mutates
`stackFrames[length-1]` in place, which is the same frame list with the
last frame's `variables` map updated). -/
def setVariable (s : MemoryManager) (name value type : Str) :
    Bool × MemoryManager :=
  match s.stackFrames.getLast? with
  | none => (false, s)
  | some frame =>
      (true,
        { s with
          stackFrames := s.stackFrames.dropLast ++
            [{ frame with vars := mapSet frame.vars name ⟨value, type⟩ }] })

/-- `getVariable(name)`: walks frames from innermost to outermost and
returns the first binding, `none` (the source's `null`) if absent. -/
def getVariable (s : MemoryManager) (name : Str) : Option VarEntry :=
  s.stackFrames.reverse.findSome? fun frame =>
    (frame.vars.find? (fun p => p.1 == name)).map (·.2)

/-- The record `getMemoryInfo()` returns. -/
structure MemoryInfo where
  stackUsed : Int
  stackTotal : Int
  heapUsed : Int
  heapTotal : Int
  activeFrames : Nat
  leaks : Nat
deriving DecidableEq, Repr

/-- `getMemoryInfo()`: `stackUsed` is the stack pointer, `heapUsed` the sum
of the sizes of blocks still `allocated`, `leaks` the count of such blocks. -/
def getMemoryInfo (s : MemoryManager) : MemoryInfo :=
  { stackUsed := s.currentStackPointer
    stackTotal := stackSize
    heapUsed := ((s.heapBlocks.filter (·.allocated)).map (·.size)).sum
    heapTotal := heapSize
    activeFrames := s.stackFrames.length
    leaks := (s.heapBlocks.filter (·.allocated)).length }

/-- One call against a `MemoryManager` instance (the state-changing public
operations; `getVariable`/`getMemoryInfo` are read-only). -/
inductive MMOp where
  | reset
  | allocStack (name : Str) (size : Int)
  | deallocStack
  | allocHeap (size : Int)
  | deallocHeap (address : Int)
  | setVar (name value type : Str)
deriving DecidableEq, Repr

/-- The state an operation leaves the instance in (on a thrown error the
source mutates nothing, so the state is unchanged). -/
def MMOp.apply (s : MemoryManager) : MMOp → MemoryManager
  | .reset => s.reset
  | .allocStack n sz => (allocateStack s n sz).2
  | .deallocStack => (deallocateStack s).2
  | .allocHeap sz => (allocateHeap s sz).2
  | .deallocHeap a => (deallocateHeap s a).2
  | .setVar n v t => (setVariable s n v t).2

/-- The state of a fresh instance after a call sequence. -/
def runOps (ops : List MMOp) : MemoryManager :=
  ops.foldl MMOp.apply MemoryManager.init

/-! ## CParser.tokenize (src/utils/CodeExplainer.ts lines 315-323)

`code.replace(/([{}();,])/g, ' $1 ').split(/\s+/).filter(t => t.trim().length > 0)`.

`pad` is the `replace` step.  `splitWS` is `split(/\s+/)` except that a
maximal whitespace run contributes one empty piece per whitespace character
rather than one in total; the subsequent `filter` removes every empty piece
from either reading, so the composition is the same function.  The split
pieces contain no whitespace, so `t.trim().length > 0` is `t ≠ []`. -/

/-- The `replace(/([{}();,])/g, ' $1 ')` step: every structural delimiter is
padded with spaces. -/
def pad : Str → Str
  | [] => []
  | c :: rest => (if isDelim c then [' ', c, ' '] else [c]) ++ pad rest

/-- Split at every whitespace character (structural recursion, so concrete
inputs evaluate by `decide`/`rfl`). -/
def splitWS (l : Str) : List Str :=
  l.foldr
    (fun c acc =>
      if isWS c then [] :: acc
      else
        match acc with
        | g :: gs => (c :: g) :: gs
        | [] => [[c]])
    [[]]

/-- `CParser.tokenize`. -/
def tokenize (code : Str) : List Str :=
  (splitWS (pad code)).filter (fun t => !t.isEmpty)

/-- `tokens.join(' ')` — the single-space joining used when re-tokenizing
the token stream. -/
def joinTokens : List Str → Str
  | [] => []
  | [t] => t
  | t :: ts => t ++ ' ' :: joinTokens ts

/-! ## CParser.parse and the tree builder (CodeExplainer.ts lines 273-562) -/

/-- The matcher of `/int\s+main\s*\(/` at one position: `"int"`, at least
one whitespace, `"main"`, optional whitespace, `'('`.  (Each greedy class is
followed by a character outside it, so greedy maximal runs are the only
candidates.) -/
def matchesIntMainAt (l : Str) : Bool :=
  if l.take 3 = str "int" then
    let r1 := l.drop 3
    let k := (r1.takeWhile isWS).length
    if k = 0 then false
    else
      let r2 := r1.drop k
      if r2.take 4 = str "main" then
        let r3 := r2.drop 4
        let k2 := (r3.takeWhile isWS).length
        (r3.drop k2).head? == some '('
      else false
  else false

/-- `hasMainFunction(code)`: `/int\s+main\s*\(/.test(code)` — the pattern
matches at some position of the text. -/
def hasMainFunction : Str → Bool
  | [] => false
  | c :: rest => matchesIntMainAt (c :: rest) || hasMainFunction rest

/-- The `ASTNode` interface: `{ type, value?, children? }` (`line`/`column`
are never set by this parser). -/
inductive ASTNode where
  | mk (type : Str) (value : Option Str) (children : List ASTNode)

/-- `parseInclude` driven by `parseProgram`'s first loop: while the current
token is `#include`, consume it and the following token as the header
value (`''` when the stream ends first). -/
def parseIncludesLoop : List Str → List ASTNode × List Str
  | [] => ([], [])
  | t :: rest =>
      if t = str "#include" then
        match rest with
        | [] => ([ASTNode.mk (str "Include") (some (str "")) []], [])
        | v :: rest2 =>
            let q := parseIncludesLoop rest2
            (ASTNode.mk (str "Include") (some v) [] :: q.1, q.2)
      else ([], t :: rest)

/-- `isFunction()`: the current token is a primitive-type keyword. -/
def isFunctionTok (t : Str) : Bool :=
  t == str "int" || t == str "void" || t == str "char" ||
  t == str "float" || t == str "double"

/-- `isStatement()`: a statement keyword, or a token starting with a letter
or underscore (`/^[a-zA-Z_]/`). -/
def isStatementTok (t : Str) : Bool :=
  (t == str "int" || t == str "char" || t == str "float" || t == str "double" ||
   t == str "printf" || t == str "scanf" || t == str "return" ||
   t == str "if" || t == str "while" || t == str "for") ||
  (match t with
   | c :: _ => c.isAlpha || c = '_'
   | [] => false)

/-- The trailing `if (tokens[current] === ';') current++` step every
statement parser ends with. -/
def skipSemi (ts : List Str) : List Str :=
  if ts.head? = some (str ";") then ts.tail else ts

/-- `parsePrintfStatement`, after `printf` itself has been consumed: skip to
the next `;` and past it.  (The remainder carries its length bound for
termination of the block loop.) -/
def parsePrintfStatement (rest : List Str) :
    ASTNode × { r : List Str // r.length ≤ rest.length } :=
  (ASTNode.mk (str "PrintfStatement") none [],
    ⟨skipSemi (rest.dropWhile (fun t => t != str ";")), by
      have h1 : List.dropWhile (fun t => t != str ";") rest <:+ rest :=
        List.dropWhile_suffix _
      have h2 := h1.length_le
      simp only [skipSemi]
      split
      · simpa using Nat.le_trans (Nat.sub_le _ 1) h2
      · exact h2⟩)

/-- `parseReturnStatement`, after `return` has been consumed: one token as
the returned value when it is not `;`, then past the `;` when present. -/
def parseReturnStatement (rest : List Str) :
    ASTNode × { r : List Str // r.length ≤ rest.length } :=
  match rest with
  | [] => (ASTNode.mk (str "ReturnStatement") none [], ⟨[], by simp⟩)
  | t :: r =>
      if t = str ";" then
        (ASTNode.mk (str "ReturnStatement") none [], ⟨r, by simp⟩)
      else
        (ASTNode.mk (str "ReturnStatement") (some t) [],
          ⟨skipSemi r, by
            simp only [skipSemi]
            split
            · simp only [List.length_tail, List.length_cons]; omega
            · simp⟩)

/-- `parseDeclaration`: a `Type` child from the leading keyword, an
`Identifier` child from the next token when present, then skip to the next
`;` and past it. -/
def parseDeclaration (typeTok : Str) (rest : List Str) :
    ASTNode × { r : List Str // r.length ≤ rest.length } :=
  match rest with
  | [] =>
      (ASTNode.mk (str "Declaration") none [ASTNode.mk (str "Type") (some typeTok) []],
        ⟨[], by simp⟩)
  | n :: r =>
      (ASTNode.mk (str "Declaration") none
        [ASTNode.mk (str "Type") (some typeTok) [],
         ASTNode.mk (str "Identifier") (some n) []],
        ⟨skipSemi (r.dropWhile (fun t => t != str ";")), by
          have h1 : List.dropWhile (fun t => t != str ";") r <:+ r :=
            List.dropWhile_suffix _
          have h2 := h1.length_le
          simp only [skipSemi]
          split
          · simp only [List.length_tail, List.length_cons]; omega
          · simp only [List.length_cons]; omega⟩)

/-- `parseExpressionStatement`: the current token as the value, then skip to
the next `;` (starting at the current token) and past it. -/
def parseExpressionStatement (t : Str) (rest : List Str) :
    ASTNode × { r : List Str // r.length ≤ rest.length } :=
  (ASTNode.mk (str "ExpressionStatement") (some t) [],
    ⟨skipSemi ((t :: rest).dropWhile (fun x => x != str ";")), by
      simp only [skipSemi]
      split
      · have h1 : List.dropWhile (fun x => x != str ";") (t :: rest) <:+ t :: rest :=
          List.dropWhile_suffix _
        have h2 := h1.length_le
        simp only [List.length_tail, List.length_cons] at *
        omega
      · rename_i hne
        cases hdw : (t :: rest).dropWhile (fun x => x != str ";") with
        | nil => simp [hdw]
        | cons a l =>
            exfalso
            have ha := List.head?_dropWhile_not (fun x => x != str ";") (t :: rest)
            rw [hdw] at ha
            simp only [List.head?_cons] at ha
            have : a = str ";" := by simpa using ha
            exact hne (by rw [hdw, this]; rfl)⟩)

/-- `parseStatement`: dispatch on the current token (already split off). -/
def parseStatement (t : Str) (rest : List Str) :
    ASTNode × { r : List Str // r.length ≤ rest.length } :=
  if t = str "printf" then parsePrintfStatement rest
  else if t = str "return" then parseReturnStatement rest
  else if t = str "int" || t = str "char" || t = str "float" || t = str "double" then
    parseDeclaration t rest
  else parseExpressionStatement t rest

/-- The statement loop of `parseBlock`: until the stream ends or the current
token is `}`, parse a statement when `isStatement()`, else skip a token. -/
def parseBlockLoop (ts : List Str) :
    List ASTNode × { r : List Str // r.length ≤ ts.length } :=
  match ts with
  | [] => ([], ⟨[], by simp⟩)
  | t :: rest =>
      if t = str "\x7d" then ([], ⟨t :: rest, Nat.le_refl _⟩)
      else if isStatementTok t then
        match parseStatement t rest with
        | (n, ⟨r1, hr1⟩) =>
            let q := parseBlockLoop r1
            (n :: q.1, ⟨q.2.1, by
              have h2 := q.2.2
              simp only [List.length_cons]
              omega⟩)
      else
        let q := parseBlockLoop rest
        (q.1, ⟨q.2.1, by
          have h2 := q.2.2
          simp only [List.length_cons]
          omega⟩)
termination_by ts.length
decreasing_by
  all_goals simp only [List.length_cons] at *
  all_goals omega

/-- `parseBlock`: skip the `{`, run the statement loop, skip the closing `}`
when present. -/
def parseBlock (ts : List Str) :
    ASTNode × { r : List Str // r.length ≤ ts.length } :=
  match parseBlockLoop ts.tail with
  | (children, ⟨r, hr⟩) =>
      (ASTNode.mk (str "Block") none children,
        ⟨if r.head? = some (str "\x7d") then r.tail else r, by
          rw [List.length_tail] at hr
          split
          · rw [List.length_tail]; omega
          · omega⟩)

/-- `parseFunction`: `ReturnType` and `FunctionName` children from the next
two tokens, skip to the parameter-list-closing `{`, and parse the body when
that `{` is there.  The remainder is strictly inside the input, which is
what the surrounding function loop's termination uses. -/
def parseFunction (ts : List Str) :
    ASTNode × { r : List Str // r.length ≤ ts.length - 1 } :=
  match ts with
  | [] => (ASTNode.mk (str "Function") none [], ⟨[], by simp⟩)
  | rt :: ts1 =>
      match ts1 with
      | [] =>
          (ASTNode.mk (str "Function") none [ASTNode.mk (str "ReturnType") (some rt) []],
            ⟨[], by simp⟩)
      | nm :: ts2 =>
          let ts3 := ts2.dropWhile (fun t => t != str "\x7b")
          if ts3.head? = some (str "\x7b") then
            match parseBlock ts3 with
            | (body, ⟨r, hr⟩) =>
                (ASTNode.mk (str "Function") none
                  [ASTNode.mk (str "ReturnType") (some rt) [],
                   ASTNode.mk (str "FunctionName") (some nm) [], body],
                  ⟨r, by
                    have h3 : ts3.length ≤ ts2.length :=
                      (List.dropWhile_suffix (fun t => t != str "\x7b")).length_le
                    simp only [List.length_cons]
                    omega⟩)
          else
            (ASTNode.mk (str "Function") none
              [ASTNode.mk (str "ReturnType") (some rt) [],
               ASTNode.mk (str "FunctionName") (some nm) []],
              ⟨ts3, by
                have h3 : ts3.length ≤ ts2.length :=
                  (List.dropWhile_suffix (fun t => t != str "\x7b")).length_le
                simp only [List.length_cons]
                omega⟩)

/-- The second loop of `parseProgram`: parse a function when the current
token is a type keyword, else skip a token. -/
def parseFunctionsLoop (ts : List Str) : List ASTNode :=
  match ts with
  | [] => []
  | t :: rest =>
      if isFunctionTok t then
        match parseFunction (t :: rest) with
        | (f, ⟨r, _hr⟩) => f :: parseFunctionsLoop r
      else parseFunctionsLoop rest
termination_by ts.length
decreasing_by
  all_goals simp only [List.length_cons] at *
  all_goals omega

/-- `parseProgram`: includes first, then the function loop. -/
def parseProgram (ts : List Str) : ASTNode :=
  let q := parseIncludesLoop ts
  ASTNode.mk (str "Program") none (q.1 ++ parseFunctionsLoop q.2)

/-- `ParseResult`: `{success:true, ast}` or `{success:false, error}`. -/
inductive ParseResult where
  | ok (ast : ASTNode)
  | err (error : Str)

/-- `CParser.parse`: tokenize; report `'Empty code'` on an empty token
stream; report `'No main function found'` when `/int\s+main\s*\(/` does not
match; otherwise build the tree.  (The `try/catch` wrapper of the source is
dead: every step below is total.) -/
def parse (code : Str) : ParseResult :=
  let tokens := tokenize code
  if tokens.length = 0 then ParseResult.err (str "Empty code")
  else if hasMainFunction code = false then ParseResult.err (str "No main function found")
  else ParseResult.ok (parseProgram tokens)

/-! ## CParser.validateSyntax (CodeExplainer.ts lines 564-591) -/

/-- The record `validateSyntax` returns. -/
structure ValidateResult where
  valid : Bool
  errors : List Str
deriving DecidableEq, Repr

/-- `validateSyntax(code)`: a net count of braces and one of parentheses;
a non-zero net count contributes an error, braces first. -/
def validateSyntax (code : Str) : ValidateResult :=
  let braceCount : Int :=
    code.foldl (fun n c => if c = '\x7b' then n + 1 else if c = '\x7d' then n - 1 else n) 0
  let parenCount : Int :=
    code.foldl (fun n c => if c = '(' then n + 1 else if c = ')' then n - 1 else n) 0
  let errors :=
    (if braceCount ≠ 0 then [str "Unbalanced braces"] else []) ++
    (if parenCount ≠ 0 then [str "Unbalanced parentheses"] else [])
  { valid := errors.length == 0, errors := errors }

/-! ## Global regex scanning

`text.match(/pattern/g)` returns the leftmost non-overlapping matches:
the engine looks for the first position at which the pattern matches,
records the match, and resumes searching at its end.  `scanMatches`
implements exactly that for a pattern given as a position matcher `step`:
`step prev c rest` decides whether the pattern matches at the position
whose character is `c`, whose remaining text is `rest` and whose preceding
character is `prev` (`none` at the start of the text — word-boundary `\b`
needs it), and returns how many characters of `rest` the match consumes
beyond `c` itself. -/

/-- All matches of a global regex, in text order (each as the matched
substring). -/
def scanMatches (step : Option Char → Char → Str → Option Nat) :
    Option Char → Str → List Str
  | _, [] => []
  | prev, c :: rest =>
      match step prev c rest with
      | some n => (c :: rest.take n) :: scanMatches step (c :: rest.take n).getLast? (rest.drop n)
      | none => scanMatches step (some c) rest
termination_by _ l => l.length
decreasing_by
  · simp only [List.length_drop, List.length_cons]; omega
  · simp only [List.length_cons]; omega

/-- `(text.match(/re/g) || []).length`. -/
def countMatches (step : Option Char → Char → Str → Option Nat) (text : Str) : Nat :=
  (scanMatches step none text).length

/-- `\b` before a word character: the previous character is absent or not a
word character. -/
def prevBoundary : Option Char → Bool
  | none => true
  | some x => !isWordChar x

/-- The next character is absent or not a word character (`\b` after a word
character). -/
def headNotWord (l : Str) : Bool :=
  match l.head? with
  | none => true
  | some x => !isWordChar x

/-- Matcher of `\bkw\b` for a keyword `kw` made of word characters
(`/\bfor\b/`, `/\bwhile\b/`, `/\bif\b/`). -/
def stepKw (kw : Str) (prev : Option Char) (c : Char) (rest : Str) : Option Nat :=
  if prevBoundary prev && (c :: rest).take kw.length == kw
      && headNotWord (rest.drop (kw.length - 1)) then
    some (kw.length - 1)
  else none

/-- Matcher of `kw\s*\(` (`/malloc\s*\(/`, `/free\s*\(/`). -/
def stepCall (kw : Str) (_prev : Option Char) (c : Char) (rest : Str) : Option Nat :=
  if (c :: rest).take kw.length == kw then
    let r1 := rest.drop (kw.length - 1)
    let k := (r1.takeWhile isWS).length
    if (r1.drop k).head? == some '(' then some (kw.length - 1 + k + 1) else none
  else none

/-- Matcher of `/malloc|calloc/`. -/
def stepAllocPat (_prev : Option Char) (c : Char) (rest : Str) : Option Nat :=
  if (c :: rest).take 6 == str "malloc" then some 5
  else if (c :: rest).take 6 == str "calloc" then some 5
  else none

/-- Matcher of `/struct\s+\w+/`: `struct`, at least one whitespace, at least
one word character (each greedy run maximal). -/
def stepStruct (_prev : Option Char) (c : Char) (rest : Str) : Option Nat :=
  if (c :: rest).take 6 == str "struct" then
    let r1 := rest.drop 5
    let k1 := (r1.takeWhile isWS).length
    if k1 = 0 then none
    else
      let r2 := r1.drop k1
      let n2 := (r2.takeWhile isWordChar).length
      if n2 = 0 then none else some (5 + k1 + n2)
  else none

/-- Matcher of `/\*\w+|\w+\*/` — the pointer-use pattern.  The first
alternative is tried first, as the JS engine does; within an alternative the
greedy `\w+` run is maximal, since `*` is not a word character. -/
def stepPointer (_prev : Option Char) (c : Char) (rest : Str) : Option Nat :=
  if c = '*' then
    let n := (rest.takeWhile isWordChar).length
    if n = 0 then none else some n
  else if isWordChar c then
    let n := (rest.takeWhile isWordChar).length
    if (rest.drop n).head? == some '*' then some (n + 1) else none
  else none

/-- Matcher of `/\b(int|char|float|double|long|short)\s+\w+/` — the
variable-declaration pattern of `estimateMemoryUsage`.  The keyword
alternatives start with pairwise distinct letters, so at most one applies at
a position. -/
def stepVar (prev : Option Char) (c : Char) (rest : Str) : Option Nat :=
  if prevBoundary prev then
    let kwLen :=
      if (c :: rest).take 3 == str "int" then some 3
      else if (c :: rest).take 4 == str "char" then some 4
      else if (c :: rest).take 5 == str "float" then some 5
      else if (c :: rest).take 6 == str "double" then some 6
      else if (c :: rest).take 4 == str "long" then some 4
      else if (c :: rest).take 5 == str "short" then some 5
      else none
    match kwLen with
    | none => none
    | some klen =>
        let r1 := rest.drop (klen - 1)
        let k1 := (r1.takeWhile isWS).length
        if k1 = 0 then none
        else
          let r2 := r1.drop k1
          let n2 := (r2.takeWhile isWordChar).length
          if n2 = 0 then none else some (klen - 1 + k1 + n2)
  else none

/-- Matcher of `/\w+\s+\w+\s*\([^)]*\)\s*\{/` — the function-definition
pattern.  Every greedy piece is followed by a character outside its class,
so each run is maximal and the match is deterministic. -/
def stepFunc (_prev : Option Char) (c : Char) (rest : Str) : Option Nat :=
  if isWordChar c then
    let n1 := (rest.takeWhile isWordChar).length
    let r1 := rest.drop n1
    let k1 := (r1.takeWhile isWS).length
    if k1 = 0 then none
    else
      let r2 := r1.drop k1
      let n2 := (r2.takeWhile isWordChar).length
      if n2 = 0 then none
      else
        let r3 := r2.drop n2
        let k2 := (r3.takeWhile isWS).length
        let r4 := r3.drop k2
        if r4.head? == some '(' then
          let r5 := r4.tail
          let b := (r5.takeWhile (fun x => x != ')')).length
          let r6 := r5.drop b
          if r6.head? == some ')' then
            let r7 := r6.tail
            let k3 := (r7.takeWhile isWS).length
            if (r7.drop k3).head? == some '\x7b' then
              some (n1 + k1 + n2 + k2 + 1 + b + 1 + k3 + 1)
            else none
          else none
        else none
  else none

/-! ## CodeExplainer.estimateMemoryUsage (CodeExplainer.ts lines 248-272) -/

/-- JS `hay.includes(needle)`: the needle occurs as a contiguous substring. -/
def strIncludes (needle : Str) : Str → Bool
  | [] => needle.isEmpty
  | c :: rest => needle.isPrefixOf (c :: rest) || strIncludes needle rest

/-- The per-declaration byte estimate: the `forEach` body checks
`variable.includes(...)` over the whole matched substring, in the order
int/float, double/long, char, short. -/
def varBytes (v : Str) : Nat :=
  if strIncludes (str "int") v || strIncludes (str "float") v then 4
  else if strIncludes (str "double") v || strIncludes (str "long") v then 8
  else if strIncludes (str "char") v then 1
  else if strIncludes (str "short") v then 2
  else 0

/-- The stack estimate before clamping: the summed per-variable bytes plus
16 bytes of call overhead per detected function. -/
def rawStackEstimate (code : Str) : Nat :=
  (scanMatches stepVar none code).foldl (fun acc v => acc + varBytes v) 0 +
    (countMatches stepFunc code) * 16

/-- The record `estimateMemoryUsage` returns. -/
structure MemUsage where
  stackUsed : Nat
  heapUsed : Nat
  activeFrames : Nat
  memoryLeaks : Nat
deriving DecidableEq, Repr

/-- `CodeExplainer.estimateMemoryUsage` (operating on the code text; the
class stores `code.trim()` in `this.code` before this runs).  `Math.max(0, …)`
on the two count differences is Nat subtraction/multiplication here. -/
def estimateMemoryUsage (code : Str) : MemUsage :=
  { stackUsed := min (rawStackEstimate code) 1024
    heapUsed := (countMatches (stepCall (str "malloc")) code) * 32
    activeFrames := max 1 (countMatches stepFunc code)
    memoryLeaks :=
      (countMatches (stepCall (str "malloc")) code) -
        (countMatches (stepCall (str "free")) code) }

/-! ## AdvancedCodeExplainer (AdvancedCodeExplainer.ts lines 1054-1072) -/

/-- `calculateComplexityScore`: the weighted sum of the seven pattern
counts, in source order. -/
def calculateComplexityScore (code : Str) : Nat :=
  (countMatches (stepKw (str "for")) code) * 2 +
  (countMatches (stepKw (str "while")) code) * 2 +
  (countMatches (stepKw (str "if")) code) * 1 +
  (countMatches stepPointer code) * 2 +
  (countMatches stepAllocPat code) * 3 +
  (countMatches stepStruct code) * 2 +
  (countMatches stepFunc code) * 1

/-- `determineComplexity`: the ordinal band of the score. -/
def determineComplexity (code : Str) : Str :=
  let score := calculateComplexityScore code
  if score ≥ 15 then str "Advanced"
  else if score ≥ 10 then str "Complex"
  else if score ≥ 5 then str "Moderate"
  else str "Simple"

/-! ## Proof-support definitions

`words` lists the maximal whitespace-free runs of a text; it is the
recursion the tokenizer's split-and-filter pipeline computes, and the shape
the idempotence proof inducts on.  The remaining definitions name the
simulator invariants the reachability proofs carry. -/

/-- The maximal whitespace-free runs of a text, in order. -/
def words : Str → List Str
  | [] => []
  | c :: rest =>
      if isWS c then words rest
      else (c :: rest.takeWhile (fun x => !isWS x)) :: words (rest.dropWhile (fun x => !isWS x))
termination_by l => l.length
decreasing_by
  · simp only [List.length_cons]; omega
  · have h1 : List.dropWhile (fun x => !isWS x) rest <:+ rest :=
      List.dropWhile_suffix _
    have := h1.length_le
    simp only [List.length_cons]; omega

/-- Adjacency discipline of a padded text: a delimiter only ever sits next
to a space. -/
def padOK (a b : Char) : Prop :=
  (isDelim a = true → b = ' ') ∧ (isDelim b = true → a = ' ')

/-- The sizes of the active stack frames, bottom to top. -/
def stackSizes (s : MemoryManager) : List Int :=
  s.stackFrames.map (fun f => f.size)

/-- The stack invariant: the pointer is the sum of the frame sizes, and
every prefix of the frame stack fits in the capacity (each prefix sum was
the pointer the moment its top frame was pushed). -/
def StackInv (s : MemoryManager) : Prop :=
  s.currentStackPointer = (stackSizes s).sum
  ∧ ∀ k, ((stackSizes s).take k).sum ≤ stackSize

/-- The heap-block addresses, in allocation order. -/
def heapAddrs (s : MemoryManager) : List Int :=
  s.heapBlocks.map (fun b => b.address)

/-- The heap invariant: addresses strictly increase in allocation order and
all sit below the heap pointer. -/
def HeapInv (s : MemoryManager) : Prop :=
  List.Chain' (fun a1 a2 => a1 < a2) (heapAddrs s)
  ∧ ∀ a ∈ heapAddrs s, a < s.currentHeapPointer

/-- An operation's heap allocation, when it has one, has positive size. -/
def AllocPos : MMOp → Prop
  | .allocHeap size => 0 < size
  | _ => True

/-! ## Lemmas about the simulator -/

theorem markFreedFirst_eq_none_iff (bs : List HeapBlock) (a : Int) :
    markFreedFirst bs a = none ↔ ∀ b ∈ bs, b.address ≠ a := by
  induction bs with
  | nil => simp [markFreedFirst]
  | cons b rest ih =>
      by_cases hb : b.address = a
      · simp [markFreedFirst, hb]
      · simp [markFreedFirst, hb, ih]

theorem markFreedFirst_decomp {bs bs' : List HeapBlock} {a : Int}
    (h : markFreedFirst bs a = some bs') :
    ∃ pre b suf,
      bs = pre ++ b :: suf
      ∧ (∀ b2 ∈ pre, b2.address ≠ a)
      ∧ b.address = a
      ∧ bs' = pre ++ { b with allocated := false } :: suf := by
  induction bs generalizing bs' with
  | nil => simp [markFreedFirst] at h
  | cons b rest ih =>
      by_cases hb : b.address = a
      · simp only [markFreedFirst, hb, if_true, Option.some.injEq] at h
        subst h
        exact ⟨[], b, rest, by simp, by simp, hb, by simp [hb]⟩
      · simp only [markFreedFirst, hb, if_false, Option.map_eq_some'] at h
        obtain ⟨bs0, hbs0, hcons⟩ := h
        obtain ⟨pre, bm, suf, hsplit, hpre, hbm, hout⟩ := ih hbs0
        exact ⟨b :: pre, bm, suf, by simp [hsplit], by
          intro b2 hb2
          rcases List.mem_cons.mp hb2 with h2 | h2
          · subst h2; exact hb
          · exact hpre b2 h2, hbm, by simp [← hcons, hout]⟩

theorem markFreedFirst_map_address {bs bs' : List HeapBlock} {a : Int}
    (h : markFreedFirst bs a = some bs') :
    bs'.map (fun b => b.address) = bs.map (fun b => b.address) := by
  obtain ⟨pre, b, suf, hsplit, _, _, hout⟩ := markFreedFirst_decomp h
  subst hsplit hout
  simp

theorem markFreedFirst_idem {bs bs' : List HeapBlock} {a : Int}
    (h : markFreedFirst bs a = some bs') :
    markFreedFirst bs' a = some bs' := by
  induction bs generalizing bs' with
  | nil => simp [markFreedFirst] at h
  | cons b rest ih =>
      by_cases hb : b.address = a
      · simp only [markFreedFirst, hb, if_true, Option.some.injEq] at h
        subst h
        simp [markFreedFirst, hb]
      · simp only [markFreedFirst, hb, if_false, Option.map_eq_some'] at h
        obtain ⟨bs0, hbs0, hcons⟩ := h
        subst hcons
        simp [markFreedFirst, hb, ih hbs0]

theorem stackInv_init : StackInv MemoryManager.init := by
  constructor
  · simp [MemoryManager.init, stackSizes]
  · intro k
    simp [MemoryManager.init, stackSizes, stackSize]

theorem stackInv_apply (s : MemoryManager) (op : MMOp) (h : StackInv s) :
    StackInv (MMOp.apply s op) := by
  obtain ⟨h1, h2⟩ := h
  cases op with
  | reset =>
      constructor
      · simp [MMOp.apply, MemoryManager.reset, stackSizes]
      · intro k
        simp [MMOp.apply, MemoryManager.reset, stackSizes, stackSize]
  | allocStack n sz =>
      simp only [MMOp.apply, allocateStack]
      split
      · exact ⟨h1, h2⟩
      · rename_i hle
        constructor
        · simp [stackSizes, h1]
        · intro k
          simp only [stackSizes] at h1 h2 ⊢
          rw [List.map_append, List.take_append_eq_append_take, List.sum_append]
          by_cases hk : k ≤ (s.stackFrames.map (fun f => f.size)).length
          · rw [Nat.sub_eq_zero_of_le hk]
            simpa using h2 k
          · have hk2 : s.stackFrames.length < k := by
              simp only [List.length_map] at hk; omega
            rw [List.take_of_length_le (by simp; omega)]
            rw [List.take_of_length_le (by simp; omega)]
            simp only [List.map_cons, List.map_nil, List.sum_cons, List.sum_nil, add_zero]
            omega
  | deallocStack =>
      simp only [MMOp.apply, deallocateStack]
      cases hl : s.stackFrames.getLast? with
      | none => exact ⟨h1, h2⟩
      | some f =>
          have hsz : (stackSizes s).getLast? = some f.size := by
            simp [stackSizes, List.getLast?_map, hl]
          have hdecomp : (stackSizes s).dropLast ++ [f.size] = stackSizes s :=
            List.dropLast_append_getLast? _ hsz
          constructor
          · have : (stackSizes s).sum = (stackSizes s).dropLast.sum + f.size := by
              conv_lhs => rw [← hdecomp]
              simp
            simp only [stackSizes, List.map_dropLast] at *
            omega
          · intro k
            simp only [stackSizes, List.map_dropLast] at *
            rw [List.dropLast_eq_take, List.take_take]
            exact h2 _
  | allocHeap sz =>
      simp only [MMOp.apply, allocateHeap]
      split
      · exact ⟨h1, h2⟩
      · exact ⟨h1, h2⟩
  | deallocHeap a =>
      simp only [MMOp.apply, deallocateHeap]
      cases hm : markFreedFirst s.heapBlocks a with
      | none => exact ⟨h1, h2⟩
      | some bs => exact ⟨h1, h2⟩
  | setVar n v t =>
      simp only [MMOp.apply, setVariable]
      cases hl : s.stackFrames.getLast? with
      | none => exact ⟨h1, h2⟩
      | some f =>
          have hsz : (stackSizes s).getLast? = some f.size := by
            simp [stackSizes, List.getLast?_map, hl]
          have hdecomp : (stackSizes s).dropLast ++ [f.size] = stackSizes s :=
            List.dropLast_append_getLast? _ hsz
          have hsame :
              (s.stackFrames.dropLast ++
                [({ f with vars := mapSet f.vars n ⟨v, t⟩ } : StackFrame)]).map
                  (fun fr => fr.size) =
              stackSizes s := by
            rw [List.map_append, List.map_dropLast]
            simpa [stackSizes] using hdecomp
          constructor
          · simpa [stackSizes, hsame] using h1
          · intro k
            simpa [stackSizes, hsame] using h2 k

theorem stackInv_foldl (ops : List MMOp) :
    ∀ s, StackInv s → StackInv (ops.foldl MMOp.apply s) := by
  induction ops with
  | nil => intro s h; exact h
  | cons op rest ih => intro s h; exact ih _ (stackInv_apply s op h)

theorem stackInv_run (ops : List MMOp) : StackInv (runOps ops) :=
  stackInv_foldl ops _ stackInv_init

theorem heapInv_init : HeapInv MemoryManager.init := by
  constructor <;> simp [MemoryManager.init, heapAddrs]

theorem heapInv_apply (s : MemoryManager) (op : MMOp) (hpos : AllocPos op)
    (h : HeapInv s) : HeapInv (MMOp.apply s op) := by
  obtain ⟨h1, h2⟩ := h
  cases op with
  | reset => constructor <;> simp [MMOp.apply, MemoryManager.reset, heapAddrs]
  | allocStack n sz =>
      simp only [MMOp.apply, allocateStack]
      split
      · exact ⟨h1, h2⟩
      · exact ⟨h1, h2⟩
  | deallocStack =>
      simp only [MMOp.apply, deallocateStack]
      cases s.stackFrames.getLast? with
      | none => exact ⟨h1, h2⟩
      | some f => exact ⟨h1, h2⟩
  | allocHeap sz =>
      have hsz : 0 < sz := hpos
      simp only [MMOp.apply, allocateHeap]
      split
      · exact ⟨h1, h2⟩
      · constructor
        · simp only [heapAddrs, List.map_append, List.map_cons, List.map_nil]
          refine List.Chain'.append h1 (List.chain'_singleton _) ?_
          intro x hx y hy
          simp only [List.head?_cons, Option.mem_def, Option.some.injEq] at hy
          subst hy
          exact h2 x (List.mem_of_mem_getLast? hx)
        · intro a ha
          dsimp only at ha ⊢
          simp only [heapAddrs, List.map_append, List.map_cons, List.map_nil,
            List.mem_append, List.mem_singleton] at ha
          rcases ha with ha | ha
          · have := h2 a ha
            omega
          · subst ha; omega
  | deallocHeap a =>
      simp only [MMOp.apply, deallocateHeap]
      cases hm : markFreedFirst s.heapBlocks a with
      | none => exact ⟨h1, h2⟩
      | some bs =>
          have hmap := markFreedFirst_map_address hm
          constructor
          · simpa [heapAddrs, hmap] using h1
          · intro x hx
            apply h2
            simpa [heapAddrs, hmap] using hx
  | setVar n v t =>
      simp only [MMOp.apply, setVariable]
      cases s.stackFrames.getLast? with
      | none => exact ⟨h1, h2⟩
      | some f => exact ⟨h1, h2⟩

theorem heapInv_foldl (ops : List MMOp) :
    ∀ s, (∀ op ∈ ops, AllocPos op) → HeapInv s →
      HeapInv (ops.foldl MMOp.apply s) := by
  induction ops with
  | nil => intro s _ h; exact h
  | cons op rest ih =>
      intro s hpos h
      exact ih _ (fun o ho => hpos o (List.mem_cons_of_mem _ ho))
        (heapInv_apply s op (hpos op (List.mem_cons_self op rest)) h)

theorem heapInv_run (ops : List MMOp) (hpos : ∀ op ∈ ops, AllocPos op) :
    HeapInv (runOps ops) :=
  heapInv_foldl ops _ hpos heapInv_init

/-! ## Claim theorems: the memory simulator -/

/-- C2: in every state reachable by any sequence of MemoryManager
operations (reset, allocateStack, deallocateStack, allocateHeap,
deallocateHeap, setVariable), the sum of the sizes of the active stack
frames equals the reported `stackUsed`, and `stackUsed` never exceeds the
stack capacity 8192; an `allocateStack` that would exceed the capacity
fails with the stack-overflow error and leaves the state unchanged rather
than silently clamping. -/
theorem memoryManager_stack_invariant (ops : List MMOp) :
    ((runOps ops).stackFrames.map (fun f => f.size)).sum
        = (getMemoryInfo (runOps ops)).stackUsed
    ∧ (getMemoryInfo (runOps ops)).stackUsed ≤ stackSize
    ∧ ∀ (functionName : Str) (size : Int),
        stackSize < (runOps ops).currentStackPointer + size →
        allocateStack (runOps ops) functionName size =
          (Except.error (str "Stack overflow"), runOps ops) := by
  obtain ⟨h1, h2⟩ := stackInv_run ops
  refine ⟨h1.symm, ?_, ?_⟩
  · have h3 := h2 (stackSizes (runOps ops)).length
    rw [List.take_length] at h3
    show (runOps ops).currentStackPointer ≤ stackSize
    omega
  · intro functionName size hgt
    simp only [allocateStack, if_pos hgt]

/-- C3: `allocateStack` fails with the stack-overflow error exactly when
`stackUsed + size` exceeds the capacity, and the rejection is atomic — the
whole state is unchanged; on success exactly one frame of the given size is
appended, `stackUsed` grows by `size`, and the heap state is untouched. -/
theorem allocateStack_spec (s : MemoryManager) (functionName : Str) (size : Int) :
    if stackSize < s.currentStackPointer + size then
      allocateStack s functionName size = (Except.error (str "Stack overflow"), s)
    else
      (allocateStack s functionName size).1 = Except.ok true
      ∧ (allocateStack s functionName size).2.stackFrames =
          s.stackFrames ++
            [{ name := functionName, size := size, vars := [],
               startAddress := s.currentStackPointer }]
      ∧ (getMemoryInfo (allocateStack s functionName size).2).stackUsed =
          (getMemoryInfo s).stackUsed + size
      ∧ (allocateStack s functionName size).2.heapBlocks = s.heapBlocks
      ∧ (allocateStack s functionName size).2.currentHeapPointer = s.currentHeapPointer := by
  by_cases hc : stackSize < s.currentStackPointer + size
  · rw [if_pos hc]
    simp [allocateStack, hc]
  · rw [if_neg hc]
    refine ⟨?_, ?_, ?_, ?_, ?_⟩ <;> simp [allocateStack, hc, getMemoryInfo]

/-- C4, counterexample: with a zero-size allocation the heap pointer does
not move, so the very next allocation returns the address of the previously
created — and here even freed — block: on a fresh simulator,
`allocateHeap 0` returns address 0 and creates a block at address 0;
after freeing address 0, `allocateHeap 64` returns address 0 again. -/
theorem allocateHeap_zero_size_reuse :
    (allocateHeap MemoryManager.init 0).1 = Except.ok 0
    ∧ ((allocateHeap MemoryManager.init 0).2.heapBlocks.map (fun b => b.address)) = [0]
    ∧ (deallocateHeap (allocateHeap MemoryManager.init 0).2 0).1 = Except.ok true
    ∧ (allocateHeap (deallocateHeap (allocateHeap MemoryManager.init 0).2 0).2 64).1
        = Except.ok 0 :=
  ⟨rfl, rfl, rfl, rfl⟩

/-- C4, amended: within one instance, provided every heap allocation in the
operation sequence has positive size, the block addresses are strictly
increasing in allocation order, and a further successful `allocateHeap`
returns an address distinct from the address of every previously created
block, freed or not. -/
theorem allocateHeap_fresh_addresses (ops : List MMOp)
    (hpos : ∀ op ∈ ops, AllocPos op) :
    List.Chain' (fun a1 a2 => a1 < a2) (heapAddrs (runOps ops))
    ∧ ∀ (size a : Int) (s2 : MemoryManager),
        allocateHeap (runOps ops) size = (Except.ok a, s2) →
        ∀ b ∈ (runOps ops).heapBlocks, b.address ≠ a := by
  obtain ⟨h1, h2⟩ := heapInv_run ops hpos
  refine ⟨h1, ?_⟩
  intro size a s2 heq b hb
  have ha : a = (runOps ops).currentHeapPointer := by
    by_cases hc : heapSize < (runOps ops).currentHeapPointer + size
    · simp [allocateHeap, hc] at heq
    · simp only [allocateHeap, if_neg hc, Prod.mk.injEq, Except.ok.injEq] at heq
      exact heq.1.symm
  have hlt := h2 b.address (by
    simp only [heapAddrs, List.mem_map]
    exact ⟨b, hb, rfl⟩)
  omega

/-- C4, witness for the amended theorem at the concrete sequence
allocate 8 bytes / free address 0 / allocate 4 bytes. -/
theorem allocateHeap_fresh_addresses_witness :
    List.Chain' (fun a1 a2 => a1 < a2)
      (heapAddrs (runOps [MMOp.allocHeap 8, MMOp.deallocHeap 0, MMOp.allocHeap 4])) :=
  (allocateHeap_fresh_addresses [MMOp.allocHeap 8, MMOp.deallocHeap 0, MMOp.allocHeap 4]
    (by
      intro op hop
      simp only [List.mem_cons, List.not_mem_nil, or_false] at hop
      rcases hop with h | h | h <;> subst h <;> simp [AllocPos])).1

/-- C5: on a fresh simulator, `allocateHeap 64` followed by `deallocateHeap`
of the returned address (0) yields a snapshot with `leaks = 0` and
`heapUsed = 0`; in general the snapshot's leak count is the number of heap
blocks still marked allocated and its `heapUsed` is the sum of the sizes of
exactly those blocks. -/
theorem getMemoryInfo_leaks_spec :
    (∀ ops : List MMOp,
        (getMemoryInfo (runOps ops)).leaks =
          ((runOps ops).heapBlocks.filter (fun b => b.allocated)).length
        ∧ (getMemoryInfo (runOps ops)).heapUsed =
            (((runOps ops).heapBlocks.filter (fun b => b.allocated)).map
              (fun b => b.size)).sum)
    ∧ (allocateHeap MemoryManager.init 64).1 = Except.ok 0
    ∧ (deallocateHeap (allocateHeap MemoryManager.init 64).2 0).1 = Except.ok true
    ∧ (getMemoryInfo (deallocateHeap (allocateHeap MemoryManager.init 64).2 0).2).leaks = 0
    ∧ (getMemoryInfo (deallocateHeap (allocateHeap MemoryManager.init 64).2 0).2).heapUsed
        = 0 :=
  ⟨fun _ => ⟨rfl, rfl⟩, rfl, rfl, rfl, rfl⟩

/-- C7: `deallocateHeap` fails with the invalid-free error precisely when no
block carries the requested address, and then mutates nothing; when a block
exists, the call succeeds and flips exactly the first matching block's
`allocated` flag to false, leaving every other component of the state
untouched — so freeing the same address again succeeds and changes nothing. -/
theorem deallocateHeap_spec (s : MemoryManager) (address : Int) :
    if ∀ b ∈ s.heapBlocks, b.address ≠ address then
      deallocateHeap s address = (Except.error (str "Invalid heap address"), s)
    else
      (deallocateHeap s address).1 = Except.ok true
      ∧ (∃ pre b suf,
            s.heapBlocks = pre ++ b :: suf
            ∧ (∀ b2 ∈ pre, b2.address ≠ address)
            ∧ b.address = address
            ∧ (deallocateHeap s address).2.heapBlocks =
                pre ++ { b with allocated := false } :: suf)
      ∧ (deallocateHeap s address).2.stackFrames = s.stackFrames
      ∧ (deallocateHeap s address).2.currentStackPointer = s.currentStackPointer
      ∧ (deallocateHeap s address).2.currentHeapPointer = s.currentHeapPointer
      ∧ deallocateHeap (deallocateHeap s address).2 address =
          (Except.ok true, (deallocateHeap s address).2) := by
  by_cases hc : ∀ b ∈ s.heapBlocks, b.address ≠ address
  · rw [if_pos hc]
    have hm : markFreedFirst s.heapBlocks address = none :=
      (markFreedFirst_eq_none_iff _ _).mpr hc
    simp [deallocateHeap, hm]
  · rw [if_neg hc]
    obtain ⟨bs, hm⟩ : ∃ bs, markFreedFirst s.heapBlocks address = some bs := by
      cases hmm : markFreedFirst s.heapBlocks address with
      | none => exact absurd ((markFreedFirst_eq_none_iff _ _).mp hmm) hc
      | some bs => exact ⟨bs, rfl⟩
    obtain ⟨pre, b, suf, hsplit, hpre, hb, hout⟩ := markFreedFirst_decomp hm
    have hidem := markFreedFirst_idem hm
    refine ⟨by simp [deallocateHeap, hm],
      ⟨pre, b, suf, hsplit, hpre, hb, by simp [deallocateHeap, hm, hout]⟩,
      by simp [deallocateHeap, hm], by simp [deallocateHeap, hm],
      by simp [deallocateHeap, hm], by simp [deallocateHeap, hm, hidem]⟩

/-! ## Claim theorems: validateSyntax, complexity, memory estimate, parse -/

theorem net_count_foldl (co cc : Char) (hne : co ≠ cc) (l : Str) (n : Int) :
    l.foldl (fun m c => if c = co then m + 1 else if c = cc then m - 1 else m) n
      = n + l.count co - l.count cc := by
  induction l generalizing n with
  | nil => simp
  | cons c rest ih =>
      simp only [List.foldl_cons, List.count_cons]
      rw [ih]
      by_cases h1 : c = co
      · subst h1
        simp only [beq_iff_eq, if_pos rfl, if_neg hne, if_neg (Ne.symm hne), if_true,
          eq_self_iff_true]
        push_cast
        omega
      · by_cases h2 : c = cc
        · subst h2
          simp only [beq_iff_eq, if_neg h1, if_pos rfl, if_neg hne, if_true,
            eq_self_iff_true, if_neg (fun h : c = co => h1 h)]
          push_cast
          omega
        · simp only [beq_iff_eq, if_neg h1, if_neg h2,
            if_neg (fun h : co = c => h1 h.symm), if_neg (fun h : cc = c => h2 h.symm)]
          omega

/-- C8: every input whose `{` count equals its `}` count and whose `(` count
equals its `)` count validates with `valid = true` and no errors; the exact
input `"int main() {"` yields exactly one error, citing unbalanced braces. -/
theorem validateSyntax_spec (code : Str)
    (hbrace : code.count '\x7b' = code.count '\x7d')
    (hparen : code.count '(' = code.count ')') :
    validateSyntax code = { valid := true, errors := [] }
    ∧ validateSyntax (str "int main() \x7b") =
        { valid := false, errors := [str "Unbalanced braces"] } := by
  constructor
  · have hb := net_count_foldl '\x7b' '\x7d' (by decide) code 0
    have hp := net_count_foldl '(' ')' (by decide) code 0
    simp only [validateSyntax, hb, hp, hbrace, hparen]
    simp
  · rfl

/-- C8 witness: a concrete balanced input, `"int main() { }"`. -/
theorem validateSyntax_spec_witness :
    validateSyntax (str "int main() \x7b \x7d") = { valid := true, errors := [] } :=
  (validateSyntax_spec (str "int main() \x7b \x7d") (by decide) (by decide)).1

/-- C9: the complexity score is the weighted sum
for×2 + while×2 + if×1 + pointer×2 + malloc/calloc×3 + struct×2 + function×1
of the pattern counts, and the ordinal label is Simple below 5, Moderate
for 5-9, Complex for 10-14 and Advanced from 15 up. -/
theorem complexity_score_spec (code : Str) :
    calculateComplexityScore code =
        2 * countMatches (stepKw (str "for")) code
      + 2 * countMatches (stepKw (str "while")) code
      + 1 * countMatches (stepKw (str "if")) code
      + 2 * countMatches stepPointer code
      + 3 * countMatches stepAllocPat code
      + 2 * countMatches stepStruct code
      + 1 * countMatches stepFunc code
    ∧ determineComplexity code =
        (if calculateComplexityScore code < 5 then str "Simple"
         else if calculateComplexityScore code < 10 then str "Moderate"
         else if calculateComplexityScore code < 15 then str "Complex"
         else str "Advanced") := by
  constructor
  · unfold calculateComplexityScore
    omega
  · simp only [determineComplexity]
    split_ifs <;> first | rfl | omega

/-- C10: `CodeExplainer.estimateMemoryUsage` silently caps the stack
estimate at 1024 bytes (it is the clamp `min raw 1024` of the computed
per-variable/per-function total, so never exceeds 1024 however many
declarations the input has), reports at least one active frame even with no
function definition, and reports exactly 32 bytes of heap per detected
`malloc(` call. -/
theorem estimateMemoryUsage_spec (code : Str) :
    (estimateMemoryUsage code).stackUsed = min (rawStackEstimate code) 1024
    ∧ (estimateMemoryUsage code).stackUsed ≤ 1024
    ∧ 1 ≤ (estimateMemoryUsage code).activeFrames
    ∧ (estimateMemoryUsage code).heapUsed =
        32 * countMatches (stepCall (str "malloc")) code := by
  refine ⟨rfl, ?_, ?_, ?_⟩
  · show min (rawStackEstimate code) 1024 ≤ 1024
    exact Nat.min_le_right _ _
  · show 1 ≤ max 1 (countMatches stepFunc code)
    exact Nat.le_max_left _ _
  · exact Nat.mul_comm (countMatches (stepCall (str "malloc")) code) 32

/-- C1, counterexample: the empty input contains no `int main(` pattern, yet
`parse` reports the empty-input diagnostic, not the missing-entry-point one
— the source checks the token stream for emptiness first. -/
theorem parse_empty_input_first :
    parse (str "") = ParseResult.err (str "Empty code")
    ∧ hasMainFunction (str "") = false
    ∧ str "Empty code" ≠ str "No main function found" :=
  ⟨rfl, rfl, by decide⟩

/-- C1, amended: for every input without the `int main(` pattern whose token
stream is non-empty, `parse` fails with the missing-entry-point diagnostic;
when the token stream is empty, the empty-input diagnostic wins, because the
code orders the empty-input check before the entry-point check. -/
theorem parse_missing_entry_point (code : Str)
    (hmain : hasMainFunction code = false) (htok : tokenize code ≠ []) :
    parse code = ParseResult.err (str "No main function found") := by
  simp only [parse]
  rw [if_neg (by simp only [List.length_eq_zero]; exact htok)]
  rw [if_pos hmain]

/-- C1, witness for the amended theorem: the input `"hello"`. -/
theorem parse_missing_entry_point_witness :
    parse (str "hello") = ParseResult.err (str "No main function found") :=
  parse_missing_entry_point (str "hello") (by decide) (by decide)

/-! ## Lemmas about the tokenizer -/

theorem words_nil : words [] = [] := by rw [words]

theorem words_cons_ws (c : Char) (l : Str) (h : isWS c = true) :
    words (c :: l) = words l := by
  rw [words, if_pos h]

theorem words_cons_tok (c : Char) (l : Str) (h : isWS c = false) :
    words (c :: l) =
      (c :: l.takeWhile (fun x => !isWS x)) :: words (l.dropWhile (fun x => !isWS x)) := by
  rw [words, if_neg (by simp [h])]

theorem splitWS_cons (c : Char) (l : Str) :
    splitWS (c :: l) =
      if isWS c then [] :: splitWS l
      else match splitWS l with | g :: gs => (c :: g) :: gs | [] => [[c]] := rfl

theorem splitWS_of_dropWhile_nil (l : Str)
    (h : l.dropWhile (fun x => !isWS x) = []) :
    splitWS l = [l.takeWhile (fun x => !isWS x)] := by
  induction l with
  | nil => rfl
  | cons c rest ih =>
      by_cases hc : isWS c
      · rw [List.dropWhile_cons_of_neg (by simp [hc])] at h
        exact absurd h (by simp)
      · rw [List.dropWhile_cons_of_pos (by simp [hc])] at h
        rw [splitWS_cons, if_neg hc, ih h,
          List.takeWhile_cons_of_pos (by simp [hc])]

theorem splitWS_of_dropWhile_cons (l : Str) (x : Char) (d : Str)
    (h : l.dropWhile (fun x => !isWS x) = x :: d) :
    splitWS l = l.takeWhile (fun x => !isWS x) :: splitWS d := by
  induction l with
  | nil => simp [List.dropWhile] at h
  | cons c rest ih =>
      by_cases hc : isWS c
      · rw [List.dropWhile_cons_of_neg (by simp [hc])] at h
        injection h with hx hd
        subst hd
        rw [splitWS_cons, if_pos hc, List.takeWhile_cons_of_neg (by simp [hc])]
      · rw [List.dropWhile_cons_of_pos (by simp [hc])] at h
        rw [splitWS_cons, if_neg hc, ih h,
          List.takeWhile_cons_of_pos (by simp [hc])]

theorem filter_splitWS (l : Str) :
    (splitWS l).filter (fun t => !t.isEmpty) = words l := by
  induction l using words.induct with
  | case1 => rw [words_nil]; rfl
  | case2 c rest hW ih =>
      rw [words_cons_ws c rest hW, splitWS_cons, if_pos hW]
      simpa using ih
  | case3 c rest hW ih =>
      have hW' : isWS c = false := by
        cases h : isWS c
        · rfl
        · exact absurd h hW
      rw [words_cons_tok c rest hW']
      cases hd : rest.dropWhile (fun x => !isWS x) with
      | nil =>
          have hsp : splitWS (c :: rest) = [c :: rest.takeWhile (fun x => !isWS x)] := by
            have := splitWS_of_dropWhile_nil (c :: rest)
              (by rw [List.dropWhile_cons_of_pos (by simp [hW'])]; exact hd)
            rwa [List.takeWhile_cons_of_pos (by simp [hW'])] at this
          rw [hsp, words_nil]
          rfl
      | cons x d =>
          have hx : isWS x = true := by
            have := List.head?_dropWhile_not (fun x => !isWS x) rest
            rw [hd] at this
            simpa using this
          have hsp : splitWS (c :: rest) =
              (c :: rest.takeWhile (fun x => !isWS x)) :: splitWS d := by
            have := splitWS_of_dropWhile_cons (c :: rest) x d
              (by rw [List.dropWhile_cons_of_pos (by simp [hW'])]; exact hd)
            rwa [List.takeWhile_cons_of_pos (by simp [hW'])] at this
          rw [hsp, words_cons_ws x d hx]
          rw [hd, words_cons_ws x d hx] at ih
          have hfd : (splitWS (x :: d)).filter (fun t => !t.isEmpty) =
              (splitWS d).filter (fun t => !t.isEmpty) := by
            rw [splitWS_cons, if_pos hx]
            simp
          rw [hfd] at ih
          simp only [List.filter_cons, List.isEmpty_cons, Bool.not_false, if_true]
          rw [ih]

theorem tokenize_eq_words (code : Str) : tokenize code = words (pad code) :=
  filter_splitWS (pad code)

theorem words_sat (l : Str) :
    ∀ t ∈ words l, t ≠ [] ∧ ∀ x ∈ t, isWS x = false := by
  induction l using words.induct with
  | case1 => rw [words_nil]; simp
  | case2 c rest hW ih => rw [words_cons_ws c rest hW]; exact ih
  | case3 c rest hW ih =>
      have hW' : isWS c = false := by
        cases h : isWS c
        · rfl
        · exact absurd h hW
      rw [words_cons_tok c rest hW']
      intro t ht
      rcases List.mem_cons.mp ht with h | h
      · subst h
        refine ⟨by simp, ?_⟩
        intro x hx
        rcases List.mem_cons.mp hx with h | h
        · subst h; exact hW'
        · have := List.mem_takeWhile_imp h
          simpa using this
      · exact ih t h

theorem words_isInfix (l : Str) : ∀ t ∈ words l, t <:+: l := by
  induction l using words.induct with
  | case1 => rw [words_nil]; simp
  | case2 c rest hW ih =>
      rw [words_cons_ws c rest hW]
      intro t ht
      exact ((ih t ht).trans (List.suffix_cons c rest).isInfix)
  | case3 c rest hW ih =>
      have hW' : isWS c = false := by
        cases h : isWS c
        · rfl
        · exact absurd h hW
      rw [words_cons_tok c rest hW']
      intro t ht
      rcases List.mem_cons.mp ht with h | h
      · subst h
        exact ((List.cons_prefix_cons).mpr ⟨rfl, List.takeWhile_prefix _⟩).isInfix
      · exact (ih t h).trans
          (((List.dropWhile_suffix _).trans (List.suffix_cons c rest)).isInfix)

theorem pad_append (a b : Str) : pad (a ++ b) = pad a ++ pad b := by
  induction a with
  | nil => rfl
  | cons c rest ih => simp [pad, ih]

theorem pad_delim_free (t : Str) (h : ∀ c ∈ t, isDelim c = false) : pad t = t := by
  induction t with
  | nil => rfl
  | cons c rest ih =>
      have hc : isDelim c = false := h c (List.mem_cons_self c rest)
      rw [pad, if_neg (by simp [hc])]
      simp [ih (fun x hx => h x (List.mem_cons_of_mem c hx))]

theorem pad_head_not_delim (s : Str) :
    ∀ y, (pad s).head? = some y → isDelim y = false := by
  cases s with
  | nil => intro y hy; simp [pad] at hy
  | cons c rest =>
      intro y hy
      rw [pad] at hy
      by_cases hc : isDelim c
      · rw [if_pos hc] at hy
        simp only [List.cons_append, List.head?_cons, Option.some.injEq] at hy
        subst hy
        rfl
      · rw [if_neg hc] at hy
        simp only [List.cons_append, List.nil_append, List.head?_cons,
          Option.some.injEq] at hy
        subst hy
        simpa using hc

theorem chain'_pad (s : Str) : List.Chain' padOK (pad s) := by
  induction s with
  | nil => simp [pad]
  | cons c rest ih =>
      rw [pad]
      refine List.Chain'.append ?_ ih ?_
      · by_cases hc : isDelim c
        · rw [if_pos hc]
          refine List.chain'_cons.mpr ⟨⟨fun h => absurd h (by decide), fun _ => rfl⟩, ?_⟩
          exact List.chain'_cons.mpr
            ⟨⟨fun _ => rfl, fun h => absurd h (by decide)⟩, List.chain'_singleton _⟩
        · rw [if_neg hc]
          exact List.chain'_singleton _
      · intro x hx y hy
        have hyd : isDelim y = false :=
          pad_head_not_delim rest y hy
        by_cases hc : isDelim c
        · rw [if_pos hc] at hx
          simp only [List.getLast?_cons_cons, List.getLast?_cons_cons,
            List.getLast?_singleton, Option.mem_def, Option.some.injEq] at hx
          subst hx
          exact ⟨fun h => absurd h (by decide), fun _ => rfl⟩
        · rw [if_neg hc] at hx
          simp only [List.getLast?_singleton, Option.mem_def, Option.some.injEq] at hx
          subst hx
          exact ⟨fun h => absurd h hc, fun h => absurd h (by simp [hyd])⟩

theorem chain_delim_singleton (t : Str) (hch : List.Chain' padOK t)
    (hws : ∀ x ∈ t, isWS x = false) :
    ∀ d ∈ t, isDelim d = true → t = [d] := by
  induction t with
  | nil => intro d hd; simp at hd
  | cons a tl ih =>
      intro d hd hdel
      rcases List.mem_cons.mp hd with h | h
      · subst h
        cases tl with
        | nil => rfl
        | cons b r =>
            have hab : padOK d b := (List.chain'_cons.mp hch).1
            have : b = ' ' := hab.1 hdel
            have hwb : isWS b = false := hws b (by simp)
            rw [this] at hwb
            simp [isWS] at hwb
      · have htl : tl = [d] :=
          ih (List.Chain'.tail hch) (fun x hx => hws x (List.mem_cons_of_mem a hx)) d h hdel
        subst htl
        have hab : padOK a d := (List.chain'_cons.mp hch).1
        have : a = ' ' := hab.2 hdel
        have hwa : isWS a = false := hws a (by simp)
        rw [this] at hwa
        simp [isWS] at hwa

theorem delim_not_ws (c : Char) (h : isDelim c = true) : isWS c = false := by
  simp only [isDelim, Bool.or_eq_true, decide_eq_true_eq] at h
  rcases h with ((((h | h) | h) | h) | h) | h <;> subst h <;> rfl

theorem words_single (t : Str) (hne : t ≠ []) (hws : ∀ x ∈ t, isWS x = false) :
    words t = [t] := by
  cases t with
  | nil => exact absurd rfl hne
  | cons c t0 =>
      have hc : isWS c = false := hws c (List.mem_cons_self c t0)
      rw [words_cons_tok c t0 hc]
      have hall : ∀ x ∈ t0, (fun x => !isWS x) x = true := by
        intro x hx
        simp [hws x (List.mem_cons_of_mem c hx)]
      have htk : t0.takeWhile (fun x => !isWS x) = t0 := by
        have h0 : (t0 ++ ([] : Str)).takeWhile (fun x => !isWS x) =
            t0 ++ ([] : Str).takeWhile (fun x => !isWS x) :=
          List.takeWhile_append_of_pos hall
        simpa using h0
      have hdr : t0.dropWhile (fun x => !isWS x) = [] := by
        have h0 : (t0 ++ ([] : Str)).dropWhile (fun x => !isWS x) =
            ([] : Str).dropWhile (fun x => !isWS x) :=
          List.dropWhile_append_of_pos hall
        simpa using h0
      rw [htk, hdr, words_nil]

theorem words_append_token (t r : Str) (hne : t ≠ [])
    (hws : ∀ x ∈ t, isWS x = false) :
    words (t ++ ' ' :: r) = t :: words r := by
  cases t with
  | nil => exact absurd rfl hne
  | cons c t0 =>
      have hc : isWS c = false := hws c (List.mem_cons_self c t0)
      rw [List.cons_append, words_cons_tok c (t0 ++ ' ' :: r) hc]
      have hall : ∀ x ∈ t0, (fun x => !isWS x) x = true := by
        intro x hx
        simp [hws x (List.mem_cons_of_mem c hx)]
      rw [List.takeWhile_append_of_pos hall, List.dropWhile_append_of_pos hall]
      rw [List.takeWhile_cons_of_neg (by simp [isWS]),
        List.dropWhile_cons_of_neg (by simp [isWS])]
      rw [words_cons_ws ' ' r (by rfl)]
      simp

theorem words_delim_chunk (d : Char) (r : Str) (hdel : isDelim d = true) :
    words (' ' :: d :: ' ' :: r) = [d] :: words r := by
  rw [words_cons_ws ' ' _ (by rfl)]
  rw [words_cons_tok d _ (delim_not_ws d hdel)]
  rw [List.takeWhile_cons_of_neg (by simp [isWS]),
    List.dropWhile_cons_of_neg (by simp [isWS])]
  rw [words_cons_ws ' ' r (by rfl)]

theorem pad_cons_space (l : Str) : pad (' ' :: l) = ' ' :: pad l := by
  rw [pad, if_neg (by simp [isDelim])]
  rfl

theorem words_pad_joinTokens (ts : List Str)
    (hgood : ∀ t ∈ ts,
      t ≠ [] ∧ (∀ x ∈ t, isWS x = false) ∧ (∀ d ∈ t, isDelim d = true → t = [d])) :
    words (pad (joinTokens ts)) = ts := by
  induction ts with
  | nil => simp [joinTokens, pad, words_nil]
  | cons t ts ih =>
      obtain ⟨hne, hws, hdel⟩ := hgood t (List.mem_cons_self t ts)
      have hrest : ∀ u ∈ ts, u ≠ [] ∧ (∀ x ∈ u, isWS x = false) ∧
          (∀ d ∈ u, isDelim d = true → u = [d]) :=
        fun u hu => hgood u (List.mem_cons_of_mem t hu)
      by_cases hfree : ∀ c ∈ t, isDelim c = false
      · -- the token contains no delimiter: pad leaves it alone
        cases ts with
        | nil =>
            show words (pad t) = [t]
            rw [pad_delim_free t hfree]
            exact words_single t hne hws
        | cons t2 ts2 =>
            show words (pad (t ++ ' ' :: joinTokens (t2 :: ts2))) = t :: t2 :: ts2
            rw [pad_append, pad_cons_space, pad_delim_free t hfree]
            rw [words_append_token t _ hne hws]
            rw [ih hrest]
      · -- the token contains a delimiter, hence is that delimiter alone
        have hex : ∃ d ∈ t, isDelim d = true := by
          by_contra hno
          push_neg at hno
          exact hfree fun c hc => by
            have := hno c hc
            cases h : isDelim c
            · rfl
            · exact absurd h this
        obtain ⟨d, hd, hdd⟩ := hex
        have ht : t = [d] := hdel d hd hdd
        subst ht
        cases ts with
        | nil =>
            show words (pad [d]) = [[d]]
            have hpd : pad [d] = ' ' :: d :: ' ' :: [] := by
              rw [pad, if_pos hdd]
              rfl
            rw [hpd, words_delim_chunk d [] hdd, words_nil]
        | cons t2 ts2 =>
            show words (pad ([d] ++ ' ' :: joinTokens (t2 :: ts2))) = [d] :: t2 :: ts2
            rw [pad_append, pad_cons_space]
            have hpd : pad [d] = ' ' :: d :: ' ' :: [] := by
              rw [pad, if_pos hdd]
              rfl
            rw [hpd]
            show words (' ' :: d :: ' ' :: (' ' :: pad (joinTokens (t2 :: ts2)))) =
              [d] :: t2 :: ts2
            rw [words_delim_chunk d _ hdd]
            rw [words_cons_ws ' ' _ (by rfl)]
            rw [ih hrest]

/-- C6: `tokenize` is idempotent — joining the token stream with single
spaces and tokenizing again yields exactly the same token sequence — and no
produced token is empty (`tokenize` is a total function: it never fails). -/
theorem tokenize_idempotent (code : Str) :
    tokenize (joinTokens (tokenize code)) = tokenize code
    ∧ ∀ t ∈ tokenize code, t ≠ [] := by
  have hgood : ∀ t ∈ tokenize code,
      t ≠ [] ∧ (∀ x ∈ t, isWS x = false) ∧
        (∀ d ∈ t, isDelim d = true → t = [d]) := by
    intro t ht
    rw [tokenize_eq_words] at ht
    have hsat := words_sat (pad code) t ht
    refine ⟨hsat.1, hsat.2, ?_⟩
    exact chain_delim_singleton t
      ( List.Chain'.infix (chain'_pad code) (words_isInfix (pad code) t ht)) hsat.2
  constructor
  · rw [tokenize_eq_words (joinTokens (tokenize code))]
    exact words_pad_joinTokens (tokenize code) hgood
  · intro t ht
    exact (hgood t ht).1
